import Mathlib

/-!
# Wasp: contract-record serialisation and the request batch scheduler

A shallow embedding of

* `packages/vm/builtinvm/root/interface.go`: `ContractRecord`, its `Write` / `Read`
  methods, `EncodeContractRecord`, `DecodeContractRecord`, `NewContractRecord`;
* `packages/vm/alone/alone.go`: `readRequestsLoop`, `collateBatch`, one iteration of
  `runBatchLoop`, and `WaitEmptyBacklog`.

Byte strings (Go `[]byte` and Go `string`) are lists of bytes.  A `bytes.Buffer` that is
written to is the list of bytes written so far; a `bytes.Reader` is the list of bytes not
yet consumed.  Go `int64` values are integers, reduced modulo `2^64` where they are
turned into bytes.
-/

set_option autoImplicit false

namespace Wasp

/-! ## Bytes and little-endian integers -/

/-- One octet. -/
abbrev Byte := Fin 256

/-- Errors a read from a byte reader can produce. -/
inductive ReadError where
  | EOF
  | UnexpectedEOF
  deriving DecidableEq, Repr

/-- Errors a write helper can produce. -/
inductive WriteError where
  | TooLong
  deriving DecidableEq, Repr

/-- The `k` low-order octets of `v`, least significant first. -/
def leBytes : Nat → Nat → List Byte
  | 0, _ => []
  | k + 1, v => ⟨v % 256, Nat.mod_lt v (by decide)⟩ :: leBytes k (v / 256)

/-- The number a list of octets denotes, least significant first. -/
def leVal : List Byte → Nat
  | [] => 0
  | b :: bs => b.val + 256 * leVal bs

/-- Go conversion `uint64(v)` of an `int64`. -/
def toUint64 (v : Int) : Nat := (v % 2 ^ 64).toNat

/-- Go conversion `int64(u)` of a `uint64`. -/
def toInt64 (u : Nat) : Int :=
  if u % 2 ^ 64 < 2 ^ 63 then ((u % 2 ^ 64 : Nat) : Int) else ((u % 2 ^ 64 : Nat) : Int) - 2 ^ 64

/-! ## The `util` read and write helpers

The package `util` (and `coretypes.ReadAgentID`, `hashing.HashValue`) lies outside the two
files embedded here; the helpers below follow the specification's description of the
record layout. -/

/-- Modelled from the spec: the reading primitive shared by the missing `util.Read*`
helpers.  "Decoding must reject truncated ... buffers": a read of `n` bytes fails when
fewer than `n` bytes are left, and otherwise consumes exactly `n` bytes. -/
def readFull (n : Nat) (r : List Byte) : Except ReadError (List Byte × List Byte) :=
  if r.length < n then
    .error (if r.length = 0 then ReadError.EOF else ReadError.UnexpectedEOF)
  else
    .ok (r.take n, r.drop n)

/-- Modelled from the spec: the missing `util.WriteString16`, "length-prefixed ... string
(16-bit length prefix, then UTF-8 bytes)".  A string whose length does not fit the 16-bit
prefix cannot be written.  The byte order of the prefix is not fixed by the spec;
little-endian is used. -/
def WriteString16 (w : List Byte) (str : List Byte) : Except WriteError (List Byte) :=
  if 65535 < str.length then .error WriteError.TooLong
  else .ok (w ++ leBytes 2 str.length ++ str)

/-- Modelled from the spec: the missing `util.ReadString16`, the reader of a string with
a 16-bit length prefix. -/
def ReadString16 (r : List Byte) : Except ReadError (List Byte × List Byte) :=
  match readFull 2 r with
  | .error e => .error e
  | .ok (pre, r1) => readFull (leVal pre) r1

/-- Modelled from the spec: the missing `util.WriteInt64`, "owner fee as signed 64-bit":
the eight octets of the two's complement representation (little-endian). -/
def WriteInt64 (w : List Byte) (v : Int) : Except WriteError (List Byte) :=
  .ok (w ++ leBytes 8 (toUint64 v))

/-- Modelled from the spec: the missing `util.ReadInt64`, the reader of a signed 64-bit
integer. -/
def ReadInt64 (r : List Byte) : Except ReadError (Int × List Byte) :=
  match readFull 8 r with
  | .error e => .error e
  | .ok (bs, r1) => .ok (toInt64 (leVal bs), r1)

/-- Modelled from the spec: the missing `util.ReadHashValue`, the reader of the "raw
program-hash bytes (fixed width)"; the width `hashSize` of `hashing.HashValue` is a
parameter. -/
def ReadHashValue (hashSize : Nat) (r : List Byte) : Except ReadError (List Byte × List Byte) :=
  readFull hashSize r

/-- Modelled from the spec: the missing `coretypes.ReadAgentID`, the reader of the "raw
creator-identity bytes (fixed width)"; the width `agentIDLength` of `coretypes.AgentID`
is a parameter. -/
def ReadAgentID (agentIDLength : Nat) (r : List Byte) :
    Except ReadError (List Byte × List Byte) :=
  readFull agentIDLength r

/-! ## `ContractRecord` (`root/interface.go`) -/

/-- ContractRecord is a structure which contains metadata for a deployed contract.
`ProgramHash` and `Creator` are Go byte arrays of fixed width, `Description` and `Name`
are Go strings (byte sequences), the fees are `int64`. -/
structure ContractRecord where
  ProgramHash : List Byte
  Description : List Byte
  Name : List Byte
  OwnerFee : Int
  ValidatorFee : Int
  Creator : List Byte
  deriving DecidableEq, Repr

/-- The constraints the Go types put on a record: the two arrays have their fixed widths
and the fees are `int64` values. -/
def ContractRecord.WellTyped (hashSize agentIDLength : Nat) (p : ContractRecord) : Prop :=
  p.ProgramHash.length = hashSize ∧ p.Creator.length = agentIDLength ∧
  (-(2 ^ 63 : Int) ≤ p.OwnerFee ∧ p.OwnerFee < 2 ^ 63) ∧
  (-(2 ^ 63 : Int) ≤ p.ValidatorFee ∧ p.ValidatorFee < 2 ^ 63)

/-- Both strings of the record fit a 16-bit length prefix. -/
def ContractRecord.StringsFit (p : ContractRecord) : Prop :=
  p.Description.length ≤ 65535 ∧ p.Name.length ≤ 65535

/-- A valid record: well typed, with strings of at most 65535 bytes. -/
def ContractRecord.Valid (hashSize agentIDLength : Nat) (p : ContractRecord) : Prop :=
  p.WellTyped hashSize agentIDLength ∧ p.StringsFit

instance (hashSize agentIDLength : Nat) (p : ContractRecord) :
    Decidable (p.WellTyped hashSize agentIDLength) := by
  unfold ContractRecord.WellTyped; infer_instance

instance (p : ContractRecord) : Decidable p.StringsFit := by
  unfold ContractRecord.StringsFit; infer_instance

instance (hashSize agentIDLength : Nat) (p : ContractRecord) :
    Decidable (p.Valid hashSize agentIDLength) := by
  unfold ContractRecord.Valid; infer_instance

/-- The method `(*ContractRecord).Write` on a buffer `w`: the fields are written in
order, the first failing helper ends the write.  Writing raw bytes to a buffer does not
fail. -/
def ContractRecord.Write (p : ContractRecord) (w : List Byte) : Except WriteError (List Byte) :=
  let w0 := w ++ p.ProgramHash
  match WriteString16 w0 p.Description with
  | .error e => .error e
  | .ok w1 =>
    match WriteString16 w1 p.Name with
    | .error e => .error e
    | .ok w2 =>
      match WriteInt64 w2 p.OwnerFee with
      | .error e => .error e
      | .ok w3 =>
        match WriteInt64 w3 p.ValidatorFee with
        | .error e => .error e
        | .ok w4 => .ok (w4 ++ p.Creator)

/-- The method `(*ContractRecord).Read` on a reader `r`: the fields are read in order,
the first failing helper ends the read with its error.  On success the record read and
the bytes left in the reader are returned; nothing after the creator is looked at. -/
def ContractRecord.Read (hashSize agentIDLength : Nat) (r : List Byte) :
    Except ReadError (ContractRecord × List Byte) :=
  match ReadHashValue hashSize r with
  | .error e => .error e
  | .ok (programHash, r1) =>
    match ReadString16 r1 with
    | .error e => .error e
    | .ok (description, r2) =>
      match ReadString16 r2 with
      | .error e => .error e
      | .ok (name, r3) =>
        match ReadInt64 r3 with
        | .error e => .error e
        | .ok (ownerFee, r4) =>
          match ReadInt64 r4 with
          | .error e => .error e
          | .ok (validatorFee, r5) =>
            match ReadAgentID agentIDLength r5 with
            | .error e => .error e
            | .ok (creator, r6) =>
              .ok ({ ProgramHash := programHash, Description := description, Name := name,
                     OwnerFee := ownerFee, ValidatorFee := validatorFee,
                     Creator := creator }, r6)

/-- Modelled from the spec: the missing `util.MustBytes`, which writes the object to a
fresh buffer and returns the bytes; a failing write is a panic, here `none`. -/
def MustBytes (write : List Byte → Except WriteError (List Byte)) : Option (List Byte) :=
  match write [] with
  | .error _ => none
  | .ok b => some b

/-- The function `EncodeContractRecord`. -/
def EncodeContractRecord (p : ContractRecord) : Option (List Byte) :=
  MustBytes p.Write

/-- The function `DecodeContractRecord`: `Read` on a reader over `data`, the error of
`Read` is returned as it is.  (`.error e` stands for a non-nil `err`; the record returned
next to a non-nil error is not modelled.) -/
def DecodeContractRecord (hashSize agentIDLength : Nat) (data : List Byte) :
    Except ReadError ContractRecord :=
  match ContractRecord.Read hashSize agentIDLength data with
  | .error e => .error e
  | .ok (ret, _) => .ok ret

/-- The fields of `contract.ContractInterface` that `NewContractRecord` reads (the type
is declared in the package `contract`). -/
structure ContractInterface where
  Name : List Byte
  Description : List Byte
  ProgramHash : List Byte
  deriving DecidableEq, Repr

/-- The function `NewContractRecord`: the fees are not set by the composite literal and
so have the zero value. -/
def NewContractRecord (itf : ContractInterface) (creator : List Byte) : ContractRecord :=
  { ProgramHash := itf.ProgramHash
    Description := itf.Description
    Name := itf.Name
    OwnerFee := 0
    ValidatorFee := 0
    Creator := creator }

/-! ## The request backlog and the batch scheduler (`alone/alone.go`) -/

/-- Modelled from the spec: the request reference `sctransaction.RequestRef`, declared
in the package `sctransaction`.  "Requests are uniquely identified by their originating
transaction id + index within that transaction", and a request carries an "optional
time-lock (Unix timestamp ...)"; `Timelock` is the value of
`ref.RequestSection().Timelock()`, an unsigned 32-bit number, `0` when no time-lock is
set. -/
structure RequestRef where
  Tx : Nat
  Index : Nat
  Timelock : Nat
  deriving DecidableEq, Repr

/-- The part of `AloneEnvironment` the scheduler works on: the backlog slice. -/
structure AloneEnvironment where
  backlog : List RequestRef
  deriving DecidableEq, Repr

/-- The variables of the loop of `collateBatch`.  `arr` is the backing array that the
slices `e.backlog` and `remain` share, `remainLen` is `len(remain)`, and `ret` is the
batch collected so far (it has an array of its own). -/
structure CollateState where
  arr : List RequestRef
  remainLen : Nat
  ret : List RequestRef
  deriving DecidableEq, Repr

/-- One iteration of `for _, ref := range e.backlog` at index `i`: `ref` is read from the
shared array; a ready request is appended to `ret`, any other is appended to `remain`,
which stores it into slot `len(remain)` of the shared array. -/
def collateStep (nowis : Int) (s : CollateState) (i : Nat) : CollateState :=
  match s.arr[i]? with
  | none => s
  | some ref =>
    if (ref.Timelock : Int) ≤ nowis then
      { s with ret := s.ret ++ [ref] }
    else
      { s with arr := s.arr.set s.remainLen ref, remainLen := s.remainLen + 1 }

/-- The whole loop of `collateBatch`: the indices `0 .. len(e.backlog) - 1` in order,
starting from `ret = []` and `remain = e.backlog[:0]`. -/
def collateLoop (nowis : Int) (backlog : List RequestRef) : CollateState :=
  (List.range backlog.length).foldl (collateStep nowis)
    { arr := backlog, remainLen := 0, ret := [] }

/-- The method `collateBatch`, with the value `nowis` of `time.Now().Unix()` as an
argument: returns the batch and the environment whose backlog is `remain`, the first
`len(remain)` slots of the shared array. -/
def collateBatch (e : AloneEnvironment) (nowis : Int) : List RequestRef × AloneEnvironment :=
  let s := collateLoop nowis e.backlog
  (s.ret, { e with backlog := s.arr.take s.remainLen })

/-- What one iteration of the loop of `runBatchLoop` did. -/
inductive LoopOutcome where
  | ranBatch
  | batchFailed
  | slept
  deriving DecidableEq, Repr

/-- One iteration of the loop of `runBatchLoop`.  The method `runBatch` is declared
in another file of the package and is a parameter: it gets the batch and the environment
and returns whether it failed, and the environment it leaves.  On an error the loop only
logs it and goes on. -/
def runBatchLoopIter (runBatch : List RequestRef → AloneEnvironment → Bool × AloneEnvironment)
    (e : AloneEnvironment) (nowis : Int) : LoopOutcome × List RequestRef × AloneEnvironment :=
  let (batch, e1) := collateBatch e nowis
  if 0 < batch.length then
    let (failed, e2) := runBatch batch e1
    if failed then (LoopOutcome.batchFailed, batch, e2)
    else (LoopOutcome.ranBatch, batch, e2)
  else
    (LoopOutcome.slept, batch, e1)

/-- Modelled from the spec: the missing method `runBatch` (the Batch Executor), declared in
another file of the package.  The virtual state is left out, and whether the commit of the
block fails (for instance on a stale block index) is the argument `commitFails`.  "only a
failure to commit the block itself (e.g., stale index) does, in which case the entire
batch's mutations are discarded and the requests are returned to the backlog for retry on
the next cycle": on a failed commit the requests of the batch are put back at the end of
the backlog and an error is returned; a run that commits leaves the backlog as it is and
returns no error. -/
def runBatch (commitFails : Bool) (batch : List RequestRef) (e : AloneEnvironment) :
    Bool × AloneEnvironment :=
  if commitFails then (true, { e with backlog := e.backlog ++ batch })
  else (false, e)

/-- Successive polls: `collateBatch` at each of the given times in turn.  Returns the
batches, one per poll, and the environment after the last poll. -/
def pollAll : AloneEnvironment → List Int → List (List RequestRef) × AloneEnvironment
  | e, [] => ([], e)
  | e, t :: ts =>
    let (batch, e1) := collateBatch e t
    let (batches, e2) := pollAll e1 ts
    (batch :: batches, e2)

/-- An action of `readRequestsLoop`: `appended r` is `e.backlog = append(e.backlog, r)`
under the backlog lock, `done` is the call `e.chPosted.Done()`. -/
inductive IntakeEvent where
  | appended (r : RequestRef)
  | done
  deriving DecidableEq, Repr

/-- The state `readRequestsLoop` works on: the environment with its backlog, and the
record of what the loop has done so far (`appended r` for `e.backlog = append(e.backlog, r)`
under the backlog lock, `done` for `e.chPosted.Done()`). -/
structure IntakeState where
  env : AloneEnvironment
  events : List IntakeEvent
  deriving DecidableEq, Repr

/-- One iteration of `for r := range e.chInRequest`: the received request is appended to
the backlog, then `chPosted.Done()` is called. -/
def readRequestsStep (s : IntakeState) (r : RequestRef) : IntakeState :=
  let s1 : IntakeState :=
    { env := { s.env with backlog := s.env.backlog ++ [r] }
      events := s.events ++ [IntakeEvent.appended r] }
  { s1 with events := s1.events ++ [IntakeEvent.done] }

/-- The method `readRequestsLoop` on the requests the channel `chInRequest` delivers, in
the order it delivers them, until the channel is closed. -/
def readRequestsLoop (s : IntakeState) (received : List RequestRef) : IntakeState :=
  received.foldl readRequestsStep s

/-- A line `WaitEmptyBacklog` writes to the log: `info n` for
`Infof("backlog length = %d", n)`, `warn d` for
`Warnf("exit due to timeout of max wait for %v", d)`. -/
inductive LogEntry where
  | info (backlogLength : Nat)
  | warn (maxWait : Int)
  deriving DecidableEq, Repr

/-- Whether a log line is something else than the deadline warning. -/
def LogEntry.isInfo : LogEntry → Bool
  | .info _ => true
  | .warn _ => false

/-- The method `backlogLen`: the length of the backlog, read under the backlog lock once
`chPosted.Wait()` has returned. -/
def backlogLen (e : AloneEnvironment) : Nat :=
  e.backlog.length

/-- What `WaitEmptyBacklog` observes of the rest of the system while it runs; the other
loops change the backlog in the meantime.  Iteration `i` of its loop is the one with
`counter = i`.  `condEnv i` is the environment as `e.backlogLen()` finds it in the loop
condition of iteration `i`, `logEnv i` the environment as it finds it in the `Infof` call
of iteration `i`, `startNow` is `time.Now()` before the loop and `nowAt i` is `time.Now()`
in the deadline test of iteration `i` (times and durations in nanoseconds). -/
structure WaitObservations where
  condEnv : Nat → AloneEnvironment
  logEnv : Nat → AloneEnvironment
  startNow : Int
  nowAt : Nat → Int

/-- The loop `for e.backlogLen() > 0` of `WaitEmptyBacklog`, run for at most `fuel`
evaluations of its condition, from the given `counter` and log.  `some (counter, log)` is
the loop left (the method returns) with the number of iterations done and the log
written; `none` is the loop still running after `fuel` iterations.  The deadline test
writes a warning and has no `break` or `return`. -/
def waitLoop (o : WaitObservations) (maxDurationSet : Bool) (deadline maxWait0 : Int) :
    Nat → Nat → List LogEntry → Option (Nat × List LogEntry)
  | 0, _, _ => none
  | fuel + 1, counter, log =>
    if 0 < backlogLen (o.condEnv counter) then
      let log1 :=
        if counter % 40 = 0 then log ++ [LogEntry.info (backlogLen (o.logEnv counter))]
        else log
      let log2 :=
        if maxDurationSet && decide (deadline < o.nowAt counter) then
          log1 ++ [LogEntry.warn maxWait0]
        else log1
      waitLoop o maxDurationSet deadline maxWait0 fuel (counter + 1) log2
    else some (counter, log)

/-- The method `WaitEmptyBacklog(maxWait ...time.Duration)`: the deadline is set when an
argument is given, then the loop runs from `counter = 0`. -/
def WaitEmptyBacklog (o : WaitObservations) (maxWait : List Int) (fuel : Nat) :
    Option (Nat × List LogEntry) :=
  let maxDurationSet := decide (0 < maxWait.length)
  let deadline := if maxDurationSet then o.startNow + maxWait.headD 0 else 0
  waitLoop o maxDurationSet deadline (maxWait.headD 0) fuel 0 []

/-! ## The call surface of the root contract (`root/interface.go`) -/

/-- Modelled from the spec: an entry of a contract's function table, the type
`contract.ContractFunctionInterface` declared in the package `contract`: the name of the
entry point and whether it is a view ("any (view)", "pure read") or a function that may
change the state.  The handlers are left out. -/
structure ContractFunctionInterface where
  Name : String
  IsView : Bool
  deriving DecidableEq, Repr

/-- Modelled from the spec: the constructor `contract.Func` of an entry point that may
change the state. -/
def Func (name : String) : ContractFunctionInterface :=
  { Name := name, IsView := false }

/-- Modelled from the spec: the constructor `contract.ViewFunc` of a view (read-only)
entry point. -/
def ViewFunc (name : String) : ContractFunctionInterface :=
  { Name := name, IsView := true }

/-- The constant `FuncDeployContract`. -/
def FuncDeployContract : String := "deployContract"

/-- The constant `FuncFindContract`. -/
def FuncFindContract : String := "findContract"

/-- The constant `FuncGetChainInfo`. -/
def FuncGetChainInfo : String := "getChainInfo"

/-- The constant `FuncDelegateChainOwnership`. -/
def FuncDelegateChainOwnership : String := "delegateChainOwnership"

/-- The constant `FuncClaimChainOwnership`. -/
def FuncClaimChainOwnership : String := "claimChainOwnership"

/-- The constant `FuncGetFeeInfo`. -/
def FuncGetFeeInfo : String := "getFeeInfo"

/-- The constant `FuncSetDefaultFee`. -/
def FuncSetDefaultFee : String := "setDefaultFee"

/-- The constant `FuncSetContractFee`. -/
def FuncSetContractFee : String := "setContractFee"

/-- The function `init`: the functions it registers with `Interface.WithFunctions`, in the
order of the source.  (The first argument of `WithFunctions` is the handler that
initialises the contract; it is not one of the listed functions.) -/
def init : List ContractFunctionInterface :=
  [ Func FuncDeployContract,
    ViewFunc FuncFindContract,
    Func FuncClaimChainOwnership,
    Func FuncDelegateChainOwnership,
    ViewFunc FuncGetChainInfo,
    ViewFunc FuncGetFeeInfo,
    Func FuncSetDefaultFee,
    Func FuncSetContractFee ]

/-! ## Concrete inputs -/

/-- A record with empty strings and zero fees, for hashes of 32 and identities of 37
bytes. -/
def emptyRecord : ContractRecord :=
  { ProgramHash := List.replicate 32 9, Description := [], Name := [],
    OwnerFee := 0, ValidatorFee := 0, Creator := List.replicate 37 3 }

/-- A record with one-byte strings, an owner fee of 5 and a validator fee of -1, for
hashes of 32 and identities of 37 bytes. -/
def sampleRecord : ContractRecord :=
  { ProgramHash := List.replicate 32 1, Description := [100], Name := [110],
    OwnerFee := 5, ValidatorFee := -1, Creator := List.replicate 37 2 }

/-- The encoding of `sampleRecord`. -/
def sampleBytes : List Byte :=
  List.replicate 32 1 ++ [1, 0, 100] ++ [1, 0, 110] ++ [5, 0, 0, 0, 0, 0, 0, 0] ++
    List.replicate 8 255 ++ List.replicate 37 2

/-- A request without time-lock. -/
def reqA : RequestRef := { Tx := 1, Index := 0, Timelock := 0 }

/-- A request locked until time 150. -/
def reqB : RequestRef := { Tx := 2, Index := 0, Timelock := 150 }

/-- A request locked until time 90. -/
def reqC : RequestRef := { Tx := 3, Index := 1, Timelock := 90 }

/-- An environment with three requests in the backlog. -/
def sampleEnv : AloneEnvironment := { backlog := [reqA, reqB, reqC] }

/-- The interface of a contract named "ab" with a three-byte description and a hash of
32 bytes. -/
def sampleInterface : ContractInterface :=
  { Name := [97, 98], Description := [100, 101, 102], ProgramHash := List.replicate 32 5 }

/-- Observations for `WaitEmptyBacklog`: the backlog has 3, 2, 1 entries at the first
three tests of the loop condition and is empty from the fourth on; the clock starts at 0
and iteration `i` reads it at `(i + 1) * 50` milliseconds. -/
def sampleObservations : WaitObservations :=
  { condEnv := fun i => { backlog := [reqA, reqB, reqC].drop i }
    logEnv := fun i => { backlog := [reqA, reqB, reqC].drop i }
    startNow := 0
    nowAt := fun i => ((i : Int) + 1) * 50000000 }

/-! ## Lemmas on the byte helpers -/

/-- The little-endian encoding on `k` octets has `k` octets. -/
theorem leBytes_length (k v : Nat) : (leBytes k v).length = k := by
  induction k generalizing v with
  | zero => rfl
  | succ k ih => simp [leBytes, ih]

/-- Reading back `k` little-endian octets gives the value modulo `256 ^ k`. -/
theorem leVal_leBytes (k v : Nat) : leVal (leBytes k v) = v % 256 ^ k := by
  induction k generalizing v with
  | zero => simp [leBytes, leVal, Nat.mod_one]
  | succ k ih =>
    simp only [leBytes, leVal, ih]
    rw [pow_succ, Nat.mul_comm (256 ^ k) 256, Nat.mod_mul]

/-- A read of exactly the bytes in front of the reader returns them and leaves the rest. -/
theorem readFull_append (xs rest : List Byte) :
    readFull xs.length (xs ++ rest) = .ok (xs, rest) := by
  simp [readFull]

/-- A successful read stays the same when bytes are added at the end of the reader. -/
theorem readFull_mono (n : Nat) (b x rest t : List Byte)
    (h : readFull n b = .ok (x, rest)) : readFull n (b ++ t) = .ok (x, rest ++ t) := by
  unfold readFull at h ⊢
  split at h
  · cases h
  · rename_i hn
    have hn' : n ≤ b.length := Nat.le_of_not_lt hn
    simp only [Except.ok.injEq, Prod.mk.injEq] at h
    obtain ⟨h1, h2⟩ := h
    have : ¬ (b ++ t).length < n := by simp; omega
    rw [if_neg this, List.take_append_of_le_length hn', List.drop_append_of_le_length hn', h1, h2]

/-- Converting an `int64` to `uint64` and back is the identity. -/
theorem toInt64_toUint64 (v : Int) (h1 : -(2 ^ 63 : Int) ≤ v) (h2 : v < 2 ^ 63) :
    toInt64 (toUint64 v) = v := by
  unfold toInt64 toUint64
  have hnn : (0 : Int) ≤ v % 2 ^ 64 := Int.emod_nonneg _ (by norm_num)
  have hlt : v % 2 ^ 64 < 2 ^ 64 := Int.emod_lt_of_pos _ (by norm_num)
  have hmod : ((v % 2 ^ 64).toNat % 2 ^ 64 : Nat) = (v % 2 ^ 64).toNat := by
    apply Nat.mod_eq_of_lt
    omega
  rw [hmod]
  have hcast : (((v % 2 ^ 64).toNat : Nat) : Int) = v % 2 ^ 64 := Int.toNat_of_nonneg hnn
  split
  · rename_i h
    rw [hcast]
    have : (v % 2 ^ 64) < 2 ^ 63 := by omega
    omega
  · rename_i h
    rw [hcast]
    omega

/-- Reading back a string written with its 16-bit length. -/
theorem ReadString16_append (s rest : List Byte) (hs : s.length ≤ 65535) :
    ReadString16 (leBytes 2 s.length ++ s ++ rest) = .ok (s, rest) := by
  unfold ReadString16
  have h2 : readFull 2 (leBytes 2 s.length ++ (s ++ rest)) =
      .ok (leBytes 2 s.length, s ++ rest) := by
    have := readFull_append (leBytes 2 s.length) (s ++ rest)
    rwa [leBytes_length] at this
  rw [List.append_assoc, h2]
  simp only
  rw [leVal_leBytes, Nat.mod_eq_of_lt (by omega)]
  exact readFull_append s rest

/-- A successful string read stays the same when bytes are added at the end. -/
theorem ReadString16_mono (b x rest t : List Byte)
    (h : ReadString16 b = .ok (x, rest)) : ReadString16 (b ++ t) = .ok (x, rest ++ t) := by
  unfold ReadString16 at h ⊢
  cases h2 : readFull 2 b with
  | error e => rw [h2] at h; cases h
  | ok v =>
    obtain ⟨pre, r1⟩ := v
    rw [h2] at h
    rw [readFull_mono 2 b pre r1 t h2]
    exact readFull_mono _ _ _ _ _ h

/-- Reading back a written `int64`. -/
theorem ReadInt64_append (v : Int) (rest : List Byte)
    (h1 : -(2 ^ 63 : Int) ≤ v) (h2 : v < 2 ^ 63) :
    ReadInt64 (leBytes 8 (toUint64 v) ++ rest) = .ok (v, rest) := by
  unfold ReadInt64
  have h8 : readFull 8 (leBytes 8 (toUint64 v) ++ rest) = .ok (leBytes 8 (toUint64 v), rest) := by
    have := readFull_append (leBytes 8 (toUint64 v)) rest
    rwa [leBytes_length] at this
  rw [h8]
  simp only
  have hlt : toUint64 v < 256 ^ 8 := by
    unfold toUint64
    have : v % 2 ^ 64 < 2 ^ 64 := Int.emod_lt_of_pos _ (by norm_num)
    have hnn : (0 : Int) ≤ v % 2 ^ 64 := Int.emod_nonneg _ (by norm_num)
    omega
  rw [leVal_leBytes, Nat.mod_eq_of_lt hlt, toInt64_toUint64 v h1 h2]

/-- A successful integer read stays the same when bytes are added at the end. -/
theorem ReadInt64_mono (b : List Byte) (x : Int) (rest t : List Byte)
    (h : ReadInt64 b = .ok (x, rest)) : ReadInt64 (b ++ t) = .ok (x, rest ++ t) := by
  unfold ReadInt64 at h ⊢
  cases h8 : readFull 8 b with
  | error e => rw [h8] at h; cases h
  | ok v =>
    obtain ⟨bs, r1⟩ := v
    rw [h8] at h
    rw [readFull_mono 8 b bs r1 t h8]
    simp only [Except.ok.injEq, Prod.mk.injEq] at h ⊢
    exact ⟨h.1, by rw [h.2]⟩

/-- The bytes `Write` appends for a record whose strings fit. -/
theorem Write_eq (p : ContractRecord) (w : List Byte) (hp : p.StringsFit) :
    p.Write w = .ok (w ++ (p.ProgramHash ++ (leBytes 2 p.Description.length ++ (p.Description ++
      (leBytes 2 p.Name.length ++ (p.Name ++ (leBytes 8 (toUint64 p.OwnerFee) ++
      (leBytes 8 (toUint64 p.ValidatorFee) ++ p.Creator)))))))) := by
  obtain ⟨hd, hn⟩ := hp
  unfold ContractRecord.Write WriteString16 WriteInt64
  simp only [if_neg (Nat.not_lt.mpr hd), if_neg (Nat.not_lt.mpr hn), List.append_assoc]

/-- Reading a record back from its bytes, whatever follows them in the reader. -/
theorem Read_layout (hashSize agentIDLength : Nat) (p : ContractRecord) (rest : List Byte)
    (hp : p.Valid hashSize agentIDLength) :
    ContractRecord.Read hashSize agentIDLength
      (p.ProgramHash ++ (leBytes 2 p.Description.length ++ (p.Description ++
      (leBytes 2 p.Name.length ++ (p.Name ++ (leBytes 8 (toUint64 p.OwnerFee) ++
      (leBytes 8 (toUint64 p.ValidatorFee) ++ p.Creator)))))) ++ rest) = .ok (p, rest) := by
  obtain ⟨⟨hh, hc, ⟨ho1, ho2⟩, ⟨hv1, hv2⟩⟩, ⟨hd, hn⟩⟩ := hp
  unfold ContractRecord.Read ReadHashValue ReadAgentID
  subst hh
  subst hc
  simp only [List.append_assoc]
  rw [readFull_append]
  simp only
  have e1 := ReadString16_append p.Description (leBytes 2 p.Name.length ++ (p.Name ++
      (leBytes 8 (toUint64 p.OwnerFee) ++ (leBytes 8 (toUint64 p.ValidatorFee) ++
      (p.Creator ++ rest))))) hd
  simp only [List.append_assoc] at e1
  rw [e1]
  simp only
  have e2 := ReadString16_append p.Name (leBytes 8 (toUint64 p.OwnerFee) ++
      (leBytes 8 (toUint64 p.ValidatorFee) ++ (p.Creator ++ rest))) hn
  simp only [List.append_assoc] at e2
  rw [e2]
  simp only
  rw [ReadInt64_append _ _ ho1 ho2]
  simp only
  rw [ReadInt64_append _ _ hv1 hv2]
  simp only
  rw [readFull_append]

/-- A successful `Read` stays the same when bytes are added at the end of the reader. -/
theorem Read_mono (hashSize agentIDLength : Nat) (b : List Byte) (p : ContractRecord)
    (rest t : List Byte) (h : ContractRecord.Read hashSize agentIDLength b = .ok (p, rest)) :
    ContractRecord.Read hashSize agentIDLength (b ++ t) = .ok (p, rest ++ t) := by
  unfold ContractRecord.Read ReadHashValue ReadAgentID at h ⊢
  cases h1 : readFull hashSize b with
  | error e => rw [h1] at h; cases h
  | ok v1 =>
    obtain ⟨x1, r1⟩ := v1
    rw [h1] at h; rw [readFull_mono _ _ _ _ t h1]
    simp only at h ⊢
    cases h2 : ReadString16 r1 with
    | error e => rw [h2] at h; cases h
    | ok v2 =>
      obtain ⟨x2, r2⟩ := v2
      rw [h2] at h; rw [ReadString16_mono _ _ _ t h2]
      simp only at h ⊢
      cases h3 : ReadString16 r2 with
      | error e => rw [h3] at h; cases h
      | ok v3 =>
        obtain ⟨x3, r3⟩ := v3
        rw [h3] at h; rw [ReadString16_mono _ _ _ t h3]
        simp only at h ⊢
        cases h4 : ReadInt64 r3 with
        | error e => rw [h4] at h; cases h
        | ok v4 =>
          obtain ⟨x4, r4⟩ := v4
          rw [h4] at h; rw [ReadInt64_mono _ _ _ t h4]
          simp only at h ⊢
          cases h5 : ReadInt64 r4 with
          | error e => rw [h5] at h; cases h
          | ok v5 =>
            obtain ⟨x5, r5⟩ := v5
            rw [h5] at h; rw [ReadInt64_mono _ _ _ t h5]
            simp only at h ⊢
            cases h6 : readFull agentIDLength r5 with
            | error e => rw [h6] at h; cases h
            | ok v6 =>
              obtain ⟨x6, r6⟩ := v6
              rw [h6] at h; rw [readFull_mono _ _ _ _ t h6]
              simp only [Except.ok.injEq, Prod.mk.injEq] at h ⊢
              exact ⟨h.1, by rw [h.2]⟩

/-! ## The record codec: encoding, decoding, layout -/

/-- The bytes `EncodeContractRecord` produces for a record whose strings fit. -/
theorem Encode_eq (p : ContractRecord) (hp : p.StringsFit) :
    EncodeContractRecord p = some (p.ProgramHash ++ (leBytes 2 p.Description.length ++
      (p.Description ++ (leBytes 2 p.Name.length ++ (p.Name ++ (leBytes 8 (toUint64 p.OwnerFee) ++
      (leBytes 8 (toUint64 p.ValidatorFee) ++ p.Creator))))))) := by
  unfold EncodeContractRecord MustBytes
  rw [Write_eq p [] hp]
  simp

/-- Decoding the encoding of a valid record followed by any bytes gives the record. -/
theorem Decode_encode_append (hashSize agentIDLength : Nat) (p : ContractRecord)
    (hp : p.Valid hashSize agentIDLength) (data t : List Byte)
    (henc : EncodeContractRecord p = some data) :
    DecodeContractRecord hashSize agentIDLength (data ++ t) = .ok p := by
  rw [Encode_eq p hp.2] at henc
  injection henc with henc
  subst henc
  unfold DecodeContractRecord
  rw [Read_layout hashSize agentIDLength p t hp]

/-- Claim C1. Round trip: for every record `r` (a hash of `hashSize` bytes, a creator of
`agentIDLength` bytes, `int64` fees) whose `Description` and `Name` are at most 65535
bytes long, `EncodeContractRecord r` returns bytes, and `DecodeContractRecord` of these
bytes succeeds and returns a record equal to `r` (so equal in all six fields). -/
theorem DecodeContractRecord_EncodeContractRecord (hashSize agentIDLength : Nat)
    (r : ContractRecord) (hty : r.WellTyped hashSize agentIDLength)
    (hlen : r.Description.length ≤ 65535 ∧ r.Name.length ≤ 65535) :
    ∃ data, EncodeContractRecord r = some data ∧
      DecodeContractRecord hashSize agentIDLength data = .ok r := by
  refine ⟨_, Encode_eq r hlen, ?_⟩
  have h := Decode_encode_append hashSize agentIDLength r ⟨hty, hlen⟩ _ [] (Encode_eq r hlen)
  rwa [List.append_nil] at h

/-- The round trip at a record with empty strings and zero fees. -/
theorem DecodeContractRecord_EncodeContractRecord_witness :
    ∃ data, EncodeContractRecord emptyRecord = some data ∧
      DecodeContractRecord 32 37 data = .ok emptyRecord :=
  DecodeContractRecord_EncodeContractRecord 32 37 emptyRecord (by decide) (by decide)

/-- Claim C2. Layout: for every record `r` whose `Description` and `Name` are at most
65535 bytes long, `EncodeContractRecord r` is the concatenation of the program hash, a
two-byte prefix holding the length of the description, the description, a two-byte prefix
holding the length of the name, the name, eight bytes holding the owner fee as a signed
64-bit number, eight bytes holding the validator fee likewise, and the creator; its length
is `len(ProgramHash) + 2 + len(Description) + 2 + len(Name) + 16 + len(Creator)`. -/
theorem EncodeContractRecord_layout (hashSize agentIDLength : Nat) (r : ContractRecord)
    (hty : r.WellTyped hashSize agentIDLength)
    (hlen : r.Description.length ≤ 65535 ∧ r.Name.length ≤ 65535) :
    ∃ dlen nlen ofee vfee : List Byte,
      EncodeContractRecord r = some (r.ProgramHash ++ (dlen ++ r.Description) ++
        (nlen ++ r.Name) ++ ofee ++ vfee ++ r.Creator) ∧
      (dlen.length = 2 ∧ leVal dlen = r.Description.length) ∧
      (nlen.length = 2 ∧ leVal nlen = r.Name.length) ∧
      (ofee.length = 8 ∧ toInt64 (leVal ofee) = r.OwnerFee) ∧
      (vfee.length = 8 ∧ toInt64 (leVal vfee) = r.ValidatorFee) ∧
      ∀ data, EncodeContractRecord r = some data →
        data.length = r.ProgramHash.length + 2 + r.Description.length + 2 + r.Name.length
          + 16 + r.Creator.length := by
  obtain ⟨_, _, ⟨ho1, ho2⟩, ⟨hv1, hv2⟩⟩ := hty
  have hu : ∀ v : Int, toUint64 v < 256 ^ 8 := by
    intro v
    unfold toUint64
    have : v % 2 ^ 64 < 2 ^ 64 := Int.emod_lt_of_pos _ (by norm_num)
    have hnn : (0 : Int) ≤ v % 2 ^ 64 := Int.emod_nonneg _ (by norm_num)
    omega
  refine ⟨leBytes 2 r.Description.length, leBytes 2 r.Name.length,
    leBytes 8 (toUint64 r.OwnerFee), leBytes 8 (toUint64 r.ValidatorFee), ?_, ?_, ?_, ?_, ?_, ?_⟩
  · rw [Encode_eq r hlen]; simp only [List.append_assoc]
  · exact ⟨leBytes_length _ _, by rw [leVal_leBytes, Nat.mod_eq_of_lt (by omega)]⟩
  · exact ⟨leBytes_length _ _, by rw [leVal_leBytes, Nat.mod_eq_of_lt (by omega)]⟩
  · exact ⟨leBytes_length _ _, by
      rw [leVal_leBytes, Nat.mod_eq_of_lt (hu _), toInt64_toUint64 _ ho1 ho2]⟩
  · exact ⟨leBytes_length _ _, by
      rw [leVal_leBytes, Nat.mod_eq_of_lt (hu _), toInt64_toUint64 _ hv1 hv2]⟩
  · intro data hd
    rw [Encode_eq r hlen] at hd
    injection hd with hd
    subst hd
    simp only [List.length_append, leBytes_length]
    omega

/-- The layout at a record with one-byte strings. -/
theorem EncodeContractRecord_layout_witness :
    ∃ dlen nlen ofee vfee : List Byte,
      EncodeContractRecord sampleRecord = some (sampleRecord.ProgramHash ++
        (dlen ++ sampleRecord.Description) ++
        (nlen ++ sampleRecord.Name) ++ ofee ++ vfee ++ sampleRecord.Creator) ∧
      (dlen.length = 2 ∧ leVal dlen = sampleRecord.Description.length) ∧
      (nlen.length = 2 ∧ leVal nlen = sampleRecord.Name.length) ∧
      (ofee.length = 8 ∧ toInt64 (leVal ofee) = sampleRecord.OwnerFee) ∧
      (vfee.length = 8 ∧ toInt64 (leVal vfee) = sampleRecord.ValidatorFee) ∧
      ∀ data, EncodeContractRecord sampleRecord = some data →
        data.length = sampleRecord.ProgramHash.length + 2 + sampleRecord.Description.length + 2
          + sampleRecord.Name.length + 16 + sampleRecord.Creator.length :=
  EncodeContractRecord_layout 32 37 sampleRecord (by decide) (by decide)

/-- Claim C3. Truncated buffers are rejected: for every valid record `r` with encoding
`data` and every strict prefix `b` of `data` (`data = b ++ t` with `t` not empty; `b` may
be empty), `DecodeContractRecord b` returns an error. -/
theorem DecodeContractRecord_truncated (hashSize agentIDLength : Nat) (r : ContractRecord)
    (hr : r.Valid hashSize agentIDLength) (data b t : List Byte)
    (henc : EncodeContractRecord r = some data) (hpre : data = b ++ t) (hstrict : t ≠ []) :
    ∃ e, DecodeContractRecord hashSize agentIDLength b = .error e := by
  cases hread : ContractRecord.Read hashSize agentIDLength b with
  | error e => exact ⟨e, by unfold DecodeContractRecord; rw [hread]⟩
  | ok v =>
    exfalso
    obtain ⟨p, rest⟩ := v
    have h1 := Read_mono hashSize agentIDLength b p rest t hread
    rw [Encode_eq r hr.2] at henc
    injection henc with henc
    have h2 := Read_layout hashSize agentIDLength r [] hr
    rw [List.append_nil, henc, hpre, h1] at h2
    simp only [Except.ok.injEq, Prod.mk.injEq, List.append_eq_nil] at h2
    exact hstrict h2.2.2

/-- The encoding of `sampleRecord` cut inside the length prefix of the name is
rejected. -/
theorem DecodeContractRecord_truncated_witness :
    ∃ e, DecodeContractRecord 32 37 (List.replicate 32 1 ++ [1, 0, 100, 1]) = .error e :=
  DecodeContractRecord_truncated 32 37 sampleRecord (by decide) sampleBytes
    (List.replicate 32 1 ++ [1, 0, 100, 1])
    ([0, 110] ++ [5, 0, 0, 0, 0, 0, 0, 0] ++ List.replicate 8 255 ++ List.replicate 37 2)
    (by decide) (by decide) (by decide)

/-- Claim C4, refuted as stated: the encoding of the valid record `sampleRecord` followed by
the extra byte `255` is decoded without error, to `sampleRecord`. -/
theorem DecodeContractRecord_trailing_accepted :
    sampleRecord.Valid 32 37 ∧ EncodeContractRecord sampleRecord = some sampleBytes ∧
    DecodeContractRecord 32 37 (sampleBytes ++ [255]) = .ok sampleRecord :=
  ⟨by decide, by decide, rfl⟩

/-- Claim C4, amended. `DecodeContractRecord` does not look at what follows the creator
identity: for every valid record `r` with encoding `data` and every byte string `t`,
`DecodeContractRecord (data ++ t)` succeeds and returns `r`. -/
theorem DecodeContractRecord_ignores_trailing (hashSize agentIDLength : Nat) (r : ContractRecord)
    (hr : r.Valid hashSize agentIDLength) (data t : List Byte)
    (henc : EncodeContractRecord r = some data) :
    DecodeContractRecord hashSize agentIDLength (data ++ t) = .ok r :=
  Decode_encode_append hashSize agentIDLength r hr data t henc

/-- Three bytes after the encoding of `sampleRecord` are ignored. -/
theorem DecodeContractRecord_ignores_trailing_witness :
    DecodeContractRecord 32 37 (sampleBytes ++ [7, 7, 7]) = .ok sampleRecord :=
  DecodeContractRecord_ignores_trailing 32 37 sampleRecord (by decide) sampleBytes [7, 7, 7]
    (by decide)

/-! ## The batch scheduler -/

/-- Storing into slot `j` does not change the first `j` slots. -/
theorem take_set_self (l : List RequestRef) (j : Nat) (a : RequestRef) :
    (l.set j a).take j = l.take j := by
  rw [List.set_take]
  apply List.set_eq_of_length_le
  simp [List.length_take]

/-- Invariant of the loop of `collateBatch` after `i` iterations: the shared array keeps
its length, `remain` holds the locked requests among the first `i`, the slots from `i` on are
still the original ones, and `ret` holds the ready requests among the first `i`. -/
theorem collateLoop_inv (nowis : Int) (l : List RequestRef) (i : Nat) (hi : i ≤ l.length) :
    ((List.range i).foldl (collateStep nowis) { arr := l, remainLen := 0, ret := [] }).arr.length
        = l.length ∧
    ((List.range i).foldl (collateStep nowis) { arr := l, remainLen := 0, ret := [] }).remainLen
        ≤ i ∧
    (((List.range i).foldl (collateStep nowis) { arr := l, remainLen := 0, ret := [] }).arr.take
      ((List.range i).foldl (collateStep nowis) { arr := l, remainLen := 0, ret := [] }).remainLen
        = (l.take i).filter (fun r => decide (nowis < (r.Timelock : Int)))) ∧
    ((List.range i).foldl (collateStep nowis) { arr := l, remainLen := 0, ret := [] }).arr.drop i
        = l.drop i ∧
    ((List.range i).foldl (collateStep nowis) { arr := l, remainLen := 0, ret := [] }).ret
        = (l.take i).filter (fun r => decide ((r.Timelock : Int) ≤ nowis)) := by
  induction i with
  | zero => simp
  | succ i ih =>
    have hlt : i < l.length := hi
    obtain ⟨hlen, hrem, htake, hdrop, hret⟩ := ih (Nat.le_of_lt hlt)
    rw [List.range_succ, List.foldl_append]
    generalize (List.range i).foldl (collateStep nowis) { arr := l, remainLen := 0, ret := [] }
      = s at hlen hrem htake hdrop hret
    have hget : s.arr[i]? = some l[i] := by
      have h1 : (s.arr.drop i)[0]? = (l.drop i)[0]? := by rw [hdrop]
      simpa [List.getElem?_drop, List.getElem?_eq_getElem hlt] using h1
    have htk : l.take (i + 1) = l.take i ++ [l[i]] := by
      rw [List.take_succ, List.getElem?_eq_getElem hlt]; rfl
    have hdr : s.arr.drop (i + 1) = l.drop (i + 1) := by
      have := congrArg (List.drop 1) hdrop
      simpa [List.drop_drop, Nat.add_comm] using this
    simp only [List.foldl_cons, List.foldl_nil, collateStep, hget]
    by_cases hready : (l[i].Timelock : Int) ≤ nowis
    · have hnot : ¬ nowis < (l[i].Timelock : Int) := not_lt.mpr hready
      rw [if_pos hready]
      refine ⟨hlen, Nat.le_succ_of_le hrem, ?_, hdr, ?_⟩
      · rw [htk, List.filter_append, htake]; simp [hnot]
      · rw [htk, List.filter_append, hret]; simp [hready]
    · have hnot : nowis < (l[i].Timelock : Int) := not_le.mp hready
      rw [if_neg hready]
      have hj : s.remainLen < s.arr.length := by omega
      refine ⟨by simp [hlen], Nat.succ_le_succ hrem, ?_, ?_, ?_⟩
      · show (s.arr.set s.remainLen l[i]).take (s.remainLen + 1) = _
        rw [htk, List.filter_append, ← htake]
        simp only [List.filter_cons, List.filter_nil, hnot, decide_True, if_true]
        rw [List.take_succ, take_set_self]
        simp [List.getElem?_set_self hj]
      · show (s.arr.set s.remainLen l[i]).drop (i + 1) = _
        rw [List.drop_set_of_lt _ _ (by omega), hdr]
      · show s.ret = _
        rw [htk, List.filter_append, hret]; simp [hready]

/-- The method `collateBatch` partitions the backlog: the batch is the backlog filtered by
"time-lock at most now", the new backlog is the backlog filtered by "time-lock after
now". -/
theorem collateBatch_eq (e : AloneEnvironment) (nowis : Int) :
    collateBatch e nowis =
      (e.backlog.filter (fun r => decide ((r.Timelock : Int) ≤ nowis)),
       { backlog := e.backlog.filter (fun r => decide (nowis < (r.Timelock : Int))) }) := by
  obtain ⟨_, _, htake, _, hret⟩ := collateLoop_inv nowis e.backlog e.backlog.length (Nat.le_refl _)
  simp only [List.take_length] at htake hret
  unfold collateBatch collateLoop
  simp only [htake, hret]

/-- Claim C5. Time gate of `collateBatch`: for every backlog and every time `nowis`, a
request is in the returned batch if and only if it is in the backlog and its time-lock is
at most `nowis`; so no request with a time-lock after `nowis` is returned, and (the clock
reading being a time at or after the epoch, `0 ≤ nowis`) every request of the backlog with
time-lock `0` is returned. -/
theorem collateBatch_time_gate (e : AloneEnvironment) (nowis : Int) (r : RequestRef) :
    (r ∈ (collateBatch e nowis).1 ↔ r ∈ e.backlog ∧ (r.Timelock : Int) ≤ nowis) ∧
    (nowis < (r.Timelock : Int) → r ∉ (collateBatch e nowis).1) ∧
    (0 ≤ nowis → r ∈ e.backlog → r.Timelock = 0 → r ∈ (collateBatch e nowis).1) := by
  rw [collateBatch_eq]
  simp only [List.mem_filter, decide_eq_true_eq]
  refine ⟨trivial, ?_, ?_⟩
  · intro h hm
    exact absurd hm.2 (not_le.mpr h)
  · intro h0 hm hz
    exact ⟨hm, by rw [hz]; exact_mod_cast h0⟩

/-- At time 100 the request without time-lock is returned and the request locked until
150 is not. -/
theorem collateBatch_time_gate_witness :
    reqA ∈ (collateBatch sampleEnv 100).1 ∧ reqB ∉ (collateBatch sampleEnv 100).1 :=
  ⟨(collateBatch_time_gate sampleEnv 100 reqA).2.2 (by decide) (by decide) rfl,
   (collateBatch_time_gate sampleEnv 100 reqB).2.1 (by decide)⟩

/-- Claim C6. After `collateBatch` at time `nowis` the backlog is the old backlog filtered
by "time-lock after `nowis`": exactly the still locked requests, in their original
relative order, although `remain` is built in the backing array of the backlog itself. -/
theorem collateBatch_backlog (e : AloneEnvironment) (nowis : Int) :
    (collateBatch e nowis).2.backlog =
      e.backlog.filter (fun r => decide (nowis < (r.Timelock : Int))) := by
  rw [collateBatch_eq]

/-- Claim C7. The batch returned by `collateBatch` is the old backlog filtered by
"time-lock at most `nowis`"; it is a sublist of the backlog, so ready requests keep the
relative order in which they were enqueued. -/
theorem collateBatch_batch_order (e : AloneEnvironment) (nowis : Int) :
    (collateBatch e nowis).1 = e.backlog.filter (fun r => decide ((r.Timelock : Int) ≤ nowis)) ∧
    (collateBatch e nowis).1.Sublist e.backlog := by
  rw [collateBatch_eq]
  exact ⟨rfl, List.filter_sublist _⟩

/-- One iteration of `runBatchLoop` with the executor `runBatch commitFails`, spelled
out: the batch is the ready requests; when it is not empty and the commit fails the
iteration fails and the backlog is the locked requests followed by the batch. -/
theorem runBatchLoopIter_runBatch (e : AloneEnvironment) (nowis : Int) (commitFails : Bool) :
    runBatchLoopIter (runBatch commitFails) e nowis =
      if 0 < (e.backlog.filter (fun r => decide ((r.Timelock : Int) ≤ nowis))).length then
        if commitFails then
          (LoopOutcome.batchFailed,
           e.backlog.filter (fun r => decide ((r.Timelock : Int) ≤ nowis)),
           { backlog := e.backlog.filter (fun r => decide (nowis < (r.Timelock : Int))) ++
               e.backlog.filter (fun r => decide ((r.Timelock : Int) ≤ nowis)) })
        else
          (LoopOutcome.ranBatch,
           e.backlog.filter (fun r => decide ((r.Timelock : Int) ≤ nowis)),
           { backlog := e.backlog.filter (fun r => decide (nowis < (r.Timelock : Int))) })
      else
        (LoopOutcome.slept,
         e.backlog.filter (fun r => decide ((r.Timelock : Int) ≤ nowis)),
         { backlog := e.backlog.filter (fun r => decide (nowis < (r.Timelock : Int))) }) := by
  unfold runBatchLoopIter runBatch
  rw [collateBatch_eq]
  cases commitFails <;> simp

/-- The locked requests followed by the ready ones are a rearrangement of the backlog. -/
theorem locked_append_ready_perm (l : List RequestRef) (nowis : Int) :
    (l.filter (fun r => decide (nowis < (r.Timelock : Int))) ++
      l.filter (fun r => decide ((r.Timelock : Int) ≤ nowis))).Perm l := by
  have h : (fun r : RequestRef => decide (nowis < (r.Timelock : Int))) =
      (fun r => !decide ((r.Timelock : Int) ≤ nowis)) := by
    funext r
    by_cases hr : (r.Timelock : Int) ≤ nowis
    · simp [hr]
    · simp [hr, not_le.mp hr]
  rw [h]
  exact List.perm_append_comm.trans (List.filter_append_perm _ _)

/-- Claim C8. When executing a collated batch fails (`runBatch` returns an error), the
requests of the batch are returned to the backlog and retried: after a failed iteration of
`runBatchLoop` at time `nowis` the failed batch was the ready requests, every request of
it is in the backlog again, the backlog is a rearrangement of the backlog before the
iteration (nothing is lost or doubled), and every request of the failed batch is in the
batch of the next poll at any time `later` from `nowis` on. -/
theorem runBatchLoopIter_requeues (e : AloneEnvironment) (nowis : Int) (commitFails : Bool)
    (hfail : (runBatchLoopIter (runBatch commitFails) e nowis).1 = LoopOutcome.batchFailed) :
    (runBatchLoopIter (runBatch commitFails) e nowis).2.1 =
      e.backlog.filter (fun r => decide ((r.Timelock : Int) ≤ nowis)) ∧
    (∀ r ∈ (runBatchLoopIter (runBatch commitFails) e nowis).2.1,
      r ∈ (runBatchLoopIter (runBatch commitFails) e nowis).2.2.backlog) ∧
    (runBatchLoopIter (runBatch commitFails) e nowis).2.2.backlog.Perm e.backlog ∧
    (∀ later, nowis ≤ later → ∀ r ∈ (runBatchLoopIter (runBatch commitFails) e nowis).2.1,
      r ∈ (collateBatch (runBatchLoopIter (runBatch commitFails) e nowis).2.2 later).1) := by
  rw [runBatchLoopIter_runBatch] at hfail ⊢
  by_cases hpos : 0 < (e.backlog.filter (fun r => decide ((r.Timelock : Int) ≤ nowis))).length
  · rw [if_pos hpos] at hfail ⊢
    cases commitFails with
    | false => simp at hfail
    | true =>
      simp only [if_true]
      refine ⟨trivial, ?_, locked_append_ready_perm e.backlog nowis, ?_⟩
      · intro r hr
        exact List.mem_append_right _ hr
      · intro later hlater r hr
        rw [collateBatch_eq]
        simp only [List.mem_filter, List.mem_append, decide_eq_true_eq] at hr ⊢
        exact ⟨Or.inr hr, le_trans hr.2 hlater⟩
  · rw [if_neg hpos] at hfail
    simp at hfail

/-- The iteration at time 100 on the backlog `[reqA, reqB, reqC]` with a failing commit:
`reqA`, a request of the failed batch, is in the backlog afterwards, and `reqC`, another
one, is in the batch of the next poll at time 100. -/
theorem runBatchLoopIter_requeues_witness :
    reqA ∈ (runBatchLoopIter (runBatch true) sampleEnv 100).2.2.backlog ∧
    reqC ∈ (collateBatch (runBatchLoopIter (runBatch true) sampleEnv 100).2.2 100).1 :=
  ⟨(runBatchLoopIter_requeues sampleEnv 100 true (by decide)).2.1 reqA (by decide),
   (runBatchLoopIter_requeues sampleEnv 100 true (by decide)).2.2.2 100 (by decide) reqC
     (by decide)⟩

/-- Successive polls produce one batch per poll. -/
theorem pollAll_length (ts : List Int) :
    ∀ e : AloneEnvironment, (pollAll e ts).1.length = ts.length := by
  induction ts with
  | nil => intro e; rfl
  | cons t ts ih => intro e; simp [pollAll, ih]

/-- An earlier entry of a list is among the entries before a later position. -/
theorem getElem_mem_take (ts : List Int) (j k : Nat) (hjk : j < k) (hk : k < ts.length) :
    ts[j] ∈ ts.take k := by
  have hj : j < (ts.take k).length := by rw [List.length_take]; omega
  have h := List.getElem_mem hj
  rwa [List.getElem_take] at h

/-- What poll number `k` of a sequence of polls returns and what the backlog is before
it, for any request `r`. -/
theorem pollAll_spec (r : RequestRef) (ts : List Int) :
    ∀ (e : AloneEnvironment) (k : Nat) (hk : k < ts.length),
      ∃ batch, (pollAll e ts).1[k]? = some batch ∧
        (r ∈ batch ↔ r ∈ e.backlog ∧ (r.Timelock : Int) ≤ ts[k] ∧
          ∀ s ∈ ts.take k, s < (r.Timelock : Int)) ∧
        (r ∈ (pollAll e (ts.take k)).2.backlog ↔ r ∈ e.backlog ∧
          ∀ s ∈ ts.take k, s < (r.Timelock : Int)) := by
  induction ts with
  | nil => intro e k hk; simp at hk
  | cons t ts ih =>
    intro e k hk
    cases k with
    | zero =>
      refine ⟨(collateBatch e t).1, ?_, ?_, ?_⟩
      · simp [pollAll]
      · rw [collateBatch_eq]; simp
      · simp [pollAll]
    | succ k =>
      have hk2 : k < ts.length := by simpa using hk
      obtain ⟨batch, hb, hin, hbl⟩ := ih (collateBatch e t).2 k hk2
      have hmem : r ∈ (collateBatch e t).2.backlog ↔ r ∈ e.backlog ∧ t < (r.Timelock : Int) := by
        rw [collateBatch_eq]; simp
      refine ⟨batch, ?_, ?_, ?_⟩
      · simpa [pollAll] using hb
      · rw [hin, hmem]
        simp only [List.getElem_cons_succ, List.take_succ_cons, List.forall_mem_cons]
        tauto
      · simp only [List.take_succ_cons, pollAll, List.forall_mem_cons]
        rw [hbl, hmem]
        tauto

/-- Claim C9. Admission over successive polls at the times `ts` (in any order of size, so
in particular non-decreasing ones) of a request `r` with time-lock `T` that is in the
backlog before the first poll.  Poll number `k` returns a batch, and `r` is in it if and
only if `T ≤ ts[k]` and every earlier poll time is before `T`, that is, if and only if
`k` is the first poll with `ts[k] ≥ T`.  While all polls so far were at times before `T`
the request is in the backlog; a poll at a time before `T` does not return it; and a
request returned by poll `k` is returned by no other poll. -/
theorem pollAll_admission (e : AloneEnvironment) (ts : List Int) (r : RequestRef)
    (hr : r ∈ e.backlog) (k : Nat) (hk : k < ts.length) :
    ∃ batch, (pollAll e ts).1[k]? = some batch ∧
      (r ∈ batch ↔ (r.Timelock : Int) ≤ ts[k] ∧ ∀ s ∈ ts.take k, s < (r.Timelock : Int)) ∧
      ((∀ s ∈ ts.take k, s < (r.Timelock : Int)) → r ∈ (pollAll e (ts.take k)).2.backlog) ∧
      (ts[k] < (r.Timelock : Int) → r ∉ batch) ∧
      (r ∈ batch → ∀ j other, j ≠ k → (pollAll e ts).1[j]? = some other → r ∉ other) := by
  obtain ⟨batch, hb, hin, hbl⟩ := pollAll_spec r ts e k hk
  refine ⟨batch, hb, ?_, ?_, ?_, ?_⟩
  · rw [hin]; tauto
  · intro h; exact hbl.mpr ⟨hr, h⟩
  · intro h hm
    exact absurd (hin.mp hm).2.1 (not_le.mpr h)
  · intro hm j other hjk hsome hmo
    have hj : j < ts.length := by
      have := (List.getElem?_eq_some.mp hsome).1
      rwa [pollAll_length] at this
    obtain ⟨batch2, hb2, hin2, _⟩ := pollAll_spec r ts e j hj
    rw [hsome] at hb2
    injection hb2 with hb2
    subst hb2
    have h1 := (hin.mp hm).2
    have h2 := (hin2.mp hmo).2
    rcases Nat.lt_trichotomy j k with h | h | h
    · exact absurd (h1.2 _ (getElem_mem_take ts j k h hk)) (not_lt.mpr h2.1)
    · exact hjk h
    · exact absurd (h2.2 _ (getElem_mem_take ts k j h hj)) (not_lt.mpr h1.1)

/-- The request locked until 150, polled at the times 50, 100, 120, 160, 170: poll
number 3 (at 160) is the one the statement is applied to. -/
theorem pollAll_admission_witness :
    ∃ batch, (pollAll sampleEnv [50, 100, 120, 160, 170]).1[3]? = some batch ∧
      (reqB ∈ batch ↔ (reqB.Timelock : Int) ≤ [50, 100, 120, 160, 170][3] ∧
        ∀ s ∈ [50, 100, 120, 160, 170].take 3, s < (reqB.Timelock : Int)) ∧
      ((∀ s ∈ [50, 100, 120, 160, 170].take 3, s < (reqB.Timelock : Int)) →
        reqB ∈ (pollAll sampleEnv ([50, 100, 120, 160, 170].take 3)).2.backlog) ∧
      (([50, 100, 120, 160, 170] : List Int)[3] < (reqB.Timelock : Int) → reqB ∉ batch) ∧
      (reqB ∈ batch → ∀ j other, j ≠ 3 →
        (pollAll sampleEnv [50, 100, 120, 160, 170]).1[j]? = some other → reqB ∉ other) :=
  pollAll_admission sampleEnv [50, 100, 120, 160, 170] reqB (by decide) 3 (by decide)

/-! ## New records -/

/-- Claim C10. `NewContractRecord itf creator` has the program hash, description and name
of `itf`, the creator `creator`, and both fees `0`; and when the description and the name
are at most 65535 bytes long, the new record is encoded, and decoding the bytes succeeds
with a record whose `OwnerFee` is `0`. -/
theorem NewContractRecord_fields (itf : ContractInterface) (creator : List Byte) :
    (NewContractRecord itf creator).ProgramHash = itf.ProgramHash ∧
    (NewContractRecord itf creator).Description = itf.Description ∧
    (NewContractRecord itf creator).Name = itf.Name ∧
    (NewContractRecord itf creator).Creator = creator ∧
    (NewContractRecord itf creator).OwnerFee = 0 ∧
    (NewContractRecord itf creator).ValidatorFee = 0 ∧
    (itf.Description.length ≤ 65535 → itf.Name.length ≤ 65535 →
      ∃ data p, EncodeContractRecord (NewContractRecord itf creator) = some data ∧
        DecodeContractRecord itf.ProgramHash.length creator.length data = .ok p ∧
        p.OwnerFee = 0) := by
  refine ⟨rfl, rfl, rfl, rfl, rfl, rfl, ?_⟩
  intro hd hn
  have hlen : (NewContractRecord itf creator).StringsFit := ⟨hd, hn⟩
  have hty : (NewContractRecord itf creator).WellTyped itf.ProgramHash.length creator.length :=
    ⟨rfl, rfl, ⟨by simp [NewContractRecord], by simp [NewContractRecord]⟩,
      ⟨by simp [NewContractRecord], by simp [NewContractRecord]⟩⟩
  refine ⟨_, NewContractRecord itf creator, Encode_eq _ hlen, ?_, rfl⟩
  have h := Decode_encode_append _ _ _ ⟨hty, hlen⟩ _ [] (Encode_eq _ hlen)
  rwa [List.append_nil] at h

/-- A new record for `sampleInterface`, encoded and decoded, has `OwnerFee = 0`. -/
theorem NewContractRecord_fields_witness :
    ∃ data p, EncodeContractRecord (NewContractRecord sampleInterface (List.replicate 37 4))
        = some data ∧
      DecodeContractRecord 32 37 data = .ok p ∧ p.OwnerFee = 0 :=
  (NewContractRecord_fields sampleInterface (List.replicate 37 4)).2.2.2.2.2.2
    (by decide) (by decide)

/-! ## No request is lost by a poll -/

/-- The batch and the new backlog of `collateBatch` together are a rearrangement of the old
backlog. -/
theorem collateBatch_perm (e : AloneEnvironment) (nowis : Int) :
    ((collateBatch e nowis).1 ++ (collateBatch e nowis).2.backlog).Perm e.backlog := by
  rw [collateBatch_eq]
  have h : (fun r : RequestRef => decide (nowis < (r.Timelock : Int))) =
      (fun r => !decide ((r.Timelock : Int) ≤ nowis)) := by
    funext r
    by_cases hr : (r.Timelock : Int) ≤ nowis
    · simp [hr]
    · simp [hr, not_le.mp hr]
  simp only [h]
  exact List.filter_append_perm _ _

/-- The backlog after a sequence of polls: the requests of the old backlog whose time-lock
is after every poll time. -/
theorem pollAll_backlog_mem (r : RequestRef) (ts : List Int) :
    ∀ e : AloneEnvironment, r ∈ (pollAll e ts).2.backlog ↔
      r ∈ e.backlog ∧ ∀ t ∈ ts, t < (r.Timelock : Int) := by
  induction ts with
  | nil => intro e; simp [pollAll]
  | cons t ts ih =>
    intro e
    have hmem : r ∈ (collateBatch e t).2.backlog ↔ r ∈ e.backlog ∧ t < (r.Timelock : Int) := by
      rw [collateBatch_eq]; simp
    simp only [pollAll, List.forall_mem_cons]
    rw [ih, hmem]
    tauto

/-- Claim C12. `collateBatch` neither drops nor duplicates a request: for every backlog and
time `nowis` the returned batch followed by the new backlog is a permutation of the old
backlog, the two lengths add up to the old length, and every request occurs in the two
together as often as in the old backlog.  A request of the backlog whose time-lock is
after every poll time of a sequence of polls is in the backlog after each of the polls. -/
theorem collateBatch_keeps_all (e : AloneEnvironment) (nowis : Int) :
    ((collateBatch e nowis).1 ++ (collateBatch e nowis).2.backlog).Perm e.backlog ∧
    (collateBatch e nowis).1.length + (collateBatch e nowis).2.backlog.length
      = e.backlog.length ∧
    (∀ r, (collateBatch e nowis).1.count r + (collateBatch e nowis).2.backlog.count r
      = e.backlog.count r) ∧
    (∀ (ts : List Int) (r : RequestRef), r ∈ e.backlog →
      (∀ t ∈ ts, t < (r.Timelock : Int)) →
        ∀ k, r ∈ (pollAll e (ts.take k)).2.backlog) := by
  have hperm := collateBatch_perm e nowis
  refine ⟨hperm, ?_, ?_, ?_⟩
  · have := hperm.length_eq
    rwa [List.length_append] at this
  · intro r
    have := hperm.count_eq r
    rwa [List.count_append] at this
  · intro ts r hr hts k
    rw [pollAll_backlog_mem]
    exact ⟨hr, fun t ht => hts t (List.mem_of_mem_take ht)⟩

/-- The request locked until 150 is in the backlog after each of the polls at 50, 100 and
120. -/
theorem collateBatch_keeps_all_witness :
    ∀ k, reqB ∈ (pollAll sampleEnv (([50, 100, 120] : List Int).take k)).2.backlog :=
  (collateBatch_keeps_all sampleEnv 100).2.2.2 [50, 100, 120] reqB (by decide) (by decide)

/-! ## Waiting for the backlog to drain -/

/-- When the loop of `WaitEmptyBacklog` is left, the backlog was found empty in the loop
condition just evaluated and non-empty in all the earlier ones. -/
theorem waitLoop_returns (o : WaitObservations) (mds : Bool) (dl mw : Int) (fuel : Nat) :
    ∀ (c : Nat) (log : List LogEntry) (n : Nat) (log2 : List LogEntry),
      waitLoop o mds dl mw fuel c log = some (n, log2) →
        c ≤ n ∧ n < c + fuel ∧ backlogLen (o.condEnv n) = 0 ∧
          ∀ i, c ≤ i → i < n → 0 < backlogLen (o.condEnv i) := by
  induction fuel with
  | zero => intro c log n log2 h; simp [waitLoop] at h
  | succ fuel ih =>
    intro c log n log2 h
    unfold waitLoop at h
    by_cases hc : 0 < backlogLen (o.condEnv c)
    · rw [if_pos hc] at h
      obtain ⟨h1, h2, h3, h4⟩ := ih _ _ _ _ h
      refine ⟨by omega, by omega, h3, ?_⟩
      intro i hi1 hi2
      rcases Nat.eq_or_lt_of_le hi1 with heq | hlt
      · rw [← heq]; exact hc
      · exact h4 i hlt hi2
    · rw [if_neg hc] at h
      simp only [Option.some.injEq, Prod.mk.injEq] at h
      obtain ⟨h1, _⟩ := h
      subst h1
      exact ⟨Nat.le_refl _, by omega, by omega, fun i hi1 hi2 => absurd hi2 (by omega)⟩

/-- While the backlog is found non-empty the loop goes on, whatever the deadline. -/
theorem waitLoop_polls (o : WaitObservations) (mds : Bool) (dl mw : Int) (fuel : Nat) :
    ∀ (c : Nat) (log : List LogEntry),
      (∀ i, c ≤ i → i < c + fuel → 0 < backlogLen (o.condEnv i)) →
        waitLoop o mds dl mw fuel c log = none := by
  induction fuel with
  | zero => intro c log _; rfl
  | succ fuel ih =>
    intro c log h
    unfold waitLoop
    rw [if_pos (h c (Nat.le_refl _) (by omega))]
    exact ih _ _ (fun i hi1 hi2 => h i (by omega) (by omega))

/-- The loop is left at the first iteration that finds the backlog empty. -/
theorem waitLoop_total (o : WaitObservations) (mds : Bool) (dl mw : Int) (fuel : Nat) :
    ∀ (c : Nat) (log : List LogEntry) (n : Nat),
      c ≤ n → n < c + fuel → backlogLen (o.condEnv n) = 0 →
        (∀ i, c ≤ i → i < n → 0 < backlogLen (o.condEnv i)) →
          ∃ log2, waitLoop o mds dl mw fuel c log = some (n, log2) := by
  induction fuel with
  | zero => intro c log n h1 h2; omega
  | succ fuel ih =>
    intro c log n h1 h2 h3 h4
    unfold waitLoop
    rcases Nat.eq_or_lt_of_le h1 with heq | hlt
    · subst heq
      rw [if_neg (by omega)]
      exact ⟨log, rfl⟩
    · rw [if_pos (h4 c (Nat.le_refl _) hlt)]
      exact ih _ _ n hlt (by omega) h3 (fun i hi1 hi2 => h4 i (by omega) hi2)

/-- The loop with a deadline does what the loop without one does, warnings apart. -/
theorem waitLoop_deadline_free (o : WaitObservations) (mds : Bool) (dl mw : Int) (fuel : Nat) :
    ∀ (c : Nat) (log log0 : List LogEntry),
      log.filter LogEntry.isInfo = log0 →
        (waitLoop o mds dl mw fuel c log).map (fun p => (p.1, p.2.filter LogEntry.isInfo)) =
          waitLoop o false 0 0 fuel c log0 := by
  induction fuel with
  | zero => intro c log log0 _; rfl
  | succ fuel ih =>
    intro c log log0 h
    unfold waitLoop
    by_cases hc : 0 < backlogLen (o.condEnv c)
    · rw [if_pos hc, if_pos hc]
      apply ih
      subst h
      by_cases h40 : c % 40 = 0 <;> by_cases hw : (mds && decide (dl < o.nowAt c)) = true <;>
        simp [h40, hw, List.filter_append, LogEntry.isInfo]
    · rw [if_neg hc, if_neg hc]
      subst h
      rfl

/-- The log when the loop of `WaitEmptyBacklog` is left: what was there before, then for
each iteration done the `Infof` line if the counter is a multiple of 40 and the `Warnf`
line if a deadline is set and has passed. -/
theorem waitLoop_log (o : WaitObservations) (mds : Bool) (dl mw : Int) (fuel : Nat) :
    ∀ (c : Nat) (log : List LogEntry) (n : Nat) (log2 : List LogEntry),
      waitLoop o mds dl mw fuel c log = some (n, log2) →
        log2 = log ++ (List.range' c (n - c)).flatMap (fun i =>
          (if i % 40 = 0 then [LogEntry.info (backlogLen (o.logEnv i))] else []) ++
          (if mds && decide (dl < o.nowAt i) then [LogEntry.warn mw] else [])) := by
  induction fuel with
  | zero => intro c log n log2 h; simp [waitLoop] at h
  | succ fuel ih =>
    intro c log n log2 h
    unfold waitLoop at h
    by_cases hc : 0 < backlogLen (o.condEnv c)
    · rw [if_pos hc] at h
      have hcn : c + 1 ≤ n := (waitLoop_returns o mds dl mw fuel _ _ n log2 h).1
      have hlen : n - c = (n - (c + 1)) + 1 := by omega
      rw [ih _ _ _ _ h, hlen, List.range'_succ, List.flatMap_cons]
      by_cases h40 : c % 40 = 0 <;> by_cases hw : (mds && decide (dl < o.nowAt c)) = true <;>
        simp [h40, hw]
    · rw [if_neg hc] at h
      simp only [Option.some.injEq, Prod.mk.injEq] at h
      obtain ⟨h1, h2⟩ := h
      subst h1 h2
      simp

/-- The log `WaitEmptyBacklog` has written when it returns after `n` iterations. -/
theorem WaitEmptyBacklog_log (o : WaitObservations) (maxWait : List Int) (fuel : Nat)
    (n : Nat) (log : List LogEntry) (h : WaitEmptyBacklog o maxWait fuel = some (n, log)) :
    log = (List.range n).flatMap (fun i =>
      (if i % 40 = 0 then [LogEntry.info (backlogLen (o.logEnv i))] else []) ++
      (match maxWait with
       | [] => []
       | d :: _ => if o.startNow + d < o.nowAt i then [LogEntry.warn d] else [])) := by
  have h2 := waitLoop_log o _ _ _ fuel 0 [] n log h
  rw [h2, List.nil_append, Nat.sub_zero, ← List.range_eq_range']
  cases maxWait with
  | nil => simp
  | cons d rest => simp

/-- In a log made of `Infof` lines and of one `Warnf` line for each index at which `late`
holds, the warning occurs once per such index. -/
theorem count_warn_flatMap (d : Int) (info : Nat → List LogEntry) (late : Nat → Bool)
    (hinfo : ∀ i, ∀ x ∈ info i, x.isInfo = true) (is : List Nat) :
    (is.flatMap (fun i => info i ++ (if late i then [LogEntry.warn d] else []))).count
      (LogEntry.warn d) = (is.filter late).length := by
  have hzero : ∀ i, (info i).count (LogEntry.warn d) = 0 := by
    intro i
    apply List.count_eq_zero.mpr
    intro hmem
    have := hinfo i _ hmem
    simp [LogEntry.isInfo] at this
  induction is with
  | nil => rfl
  | cons i is ih =>
    simp only [List.flatMap_cons, List.count_append, ih, hzero, List.filter_cons]
    by_cases hl : late i = true <;> simp [hl]
    omega

/-- Claim C13. The deadline of `WaitEmptyBacklog` only produces warnings and never forces
a return, with or without a `maxWait` argument.  If the method returns after `n`
iterations, `backlogLen()` was `0` in the loop condition then and positive in every
earlier one; while `backlogLen()` is positive in the loop condition the method is still
polling, whatever the deadline and the clock; it does return at the first iteration that
finds the backlog empty; and a run with a deadline differs from the run without one only
by the warnings in the log.  The warnings are produced: the log of a run that returns
after `n` iterations is, iteration by iteration, the `Infof` line when the counter is a
multiple of 40 followed by the `Warnf` line when a `maxWait` is given and the deadline
`startNow + maxWait[0]` is before the clock reading of that iteration; so with a deadline
`d` the warning is in the log once for every iteration done after the deadline, and
without a `maxWait` argument no warning is written. -/
theorem WaitEmptyBacklog_deadline_only_warns (o : WaitObservations) (maxWait : List Int)
    (fuel : Nat) :
    (∀ n log, WaitEmptyBacklog o maxWait fuel = some (n, log) →
      backlogLen (o.condEnv n) = 0 ∧ ∀ i, i < n → 0 < backlogLen (o.condEnv i)) ∧
    ((∀ i, i < fuel → 0 < backlogLen (o.condEnv i)) → WaitEmptyBacklog o maxWait fuel = none) ∧
    (∀ n, n < fuel → backlogLen (o.condEnv n) = 0 →
      (∀ i, i < n → 0 < backlogLen (o.condEnv i)) →
        ∃ log, WaitEmptyBacklog o maxWait fuel = some (n, log)) ∧
    ((WaitEmptyBacklog o maxWait fuel).map (fun p => (p.1, p.2.filter LogEntry.isInfo))
      = WaitEmptyBacklog o [] fuel) ∧
    (∀ n log, WaitEmptyBacklog o maxWait fuel = some (n, log) →
      log = (List.range n).flatMap (fun i =>
        (if i % 40 = 0 then [LogEntry.info (backlogLen (o.logEnv i))] else []) ++
        (match maxWait with
         | [] => []
         | d :: _ => if o.startNow + d < o.nowAt i then [LogEntry.warn d] else []))) ∧
    (∀ n log d rest, maxWait = d :: rest → WaitEmptyBacklog o maxWait fuel = some (n, log) →
      log.count (LogEntry.warn d)
        = ((List.range n).filter (fun i => decide (o.startNow + d < o.nowAt i))).length ∧
      ∀ i, i < n → o.startNow + d < o.nowAt i → LogEntry.warn d ∈ log) ∧
    (maxWait = [] → ∀ n log, WaitEmptyBacklog o maxWait fuel = some (n, log) →
      ∀ d, LogEntry.warn d ∉ log) := by
  refine ⟨?_, ?_, ?_, ?_, ?_, ?_, ?_⟩
  · intro n log h
    obtain ⟨_, _, h3, h4⟩ := waitLoop_returns o _ _ _ fuel 0 [] n log h
    exact ⟨h3, fun i hi => h4 i (Nat.zero_le _) hi⟩
  · intro h
    exact waitLoop_polls o _ _ _ fuel 0 [] (fun i _ hi => h i (by omega))
  · intro n hn h0 hpos
    exact waitLoop_total o _ _ _ fuel 0 [] n (Nat.zero_le _) (by omega) h0
      (fun i _ hi => hpos i hi)
  · exact waitLoop_deadline_free o _ _ _ fuel 0 [] [] rfl
  · intro n log h
    exact WaitEmptyBacklog_log o maxWait fuel n log h
  · intro n log d rest hmw h
    subst hmw
    have hlog := WaitEmptyBacklog_log o (d :: rest) fuel n log h
    simp only at hlog
    have hcount : log.count (LogEntry.warn d)
        = ((List.range n).filter (fun i => decide (o.startNow + d < o.nowAt i))).length := by
      rw [hlog]
      have := count_warn_flatMap d
        (fun i => if i % 40 = 0 then [LogEntry.info (backlogLen (o.logEnv i))] else [])
        (fun i => decide (o.startNow + d < o.nowAt i))
        (by
          intro i x hx
          by_cases h40 : i % 40 = 0
          · simp only [h40, if_true, List.mem_singleton] at hx
            subst hx; rfl
          · simp [h40] at hx)
        (List.range n)
      simpa using this
    refine ⟨hcount, ?_⟩
    intro i hi hlate
    apply List.count_pos_iff.mp
    rw [hcount]
    apply List.length_pos_of_mem (a := i)
    simp [List.mem_filter, hi, hlate]
  · intro hmw n log h d
    subst hmw
    have hlog := WaitEmptyBacklog_log o [] fuel n log h
    rw [hlog]
    simp only [List.append_nil, List.mem_flatMap, not_exists, not_and]
    intro i _ hmem
    by_cases h40 : i % 40 = 0 <;> simp [h40] at hmem

/-- With a deadline of 60 milliseconds, which has passed from the second iteration on, the
method is still polling after three iterations and returns at the fourth test of the loop
condition, the first that finds the backlog empty; the log then holds the `Infof` line of
the first iteration and the warning of the second and of the third iteration. -/
theorem WaitEmptyBacklog_deadline_only_warns_witness :
    WaitEmptyBacklog sampleObservations [60000000] 3 = none ∧
    (∃ log, WaitEmptyBacklog sampleObservations [60000000] 10 = some (3, log)) ∧
    (∀ log, WaitEmptyBacklog sampleObservations [60000000] 10 = some (3, log) →
      log = [LogEntry.info 3, LogEntry.warn 60000000, LogEntry.warn 60000000]) ∧
    WaitEmptyBacklog sampleObservations [60000000] 10
      = some (3, [LogEntry.info 3, LogEntry.warn 60000000, LogEntry.warn 60000000]) :=
  ⟨(WaitEmptyBacklog_deadline_only_warns sampleObservations [60000000] 3).2.1 (by decide),
   (WaitEmptyBacklog_deadline_only_warns sampleObservations [60000000] 10).2.2.1 3
     (by decide) (by decide) (by decide),
   fun log h =>
     ((WaitEmptyBacklog_deadline_only_warns sampleObservations [60000000] 10).2.2.2.2.1 3
       log h).trans (by decide),
   by decide⟩

/-! ## Request intake -/

/-- The backlog and the record of events after `readRequestsLoop` has received a list of
requests. -/
theorem readRequestsLoop_spec (received : List RequestRef) :
    ∀ s : IntakeState,
      (readRequestsLoop s received).env.backlog = s.env.backlog ++ received ∧
      (readRequestsLoop s received).events = s.events ++
        received.flatMap (fun r => [IntakeEvent.appended r, IntakeEvent.done]) := by
  induction received with
  | nil => intro s; simp [readRequestsLoop]
  | cons r rs ih =>
    intro s
    have h := ih (readRequestsStep s r)
    simp only [readRequestsLoop, List.foldl_cons] at h ⊢
    rw [h.1, h.2]
    simp [readRequestsStep]

/-- One `done` per request in the events of an intake. -/
theorem count_done_flatMap (received : List RequestRef) :
    (received.flatMap (fun r => [IntakeEvent.appended r, IntakeEvent.done])).count
      IntakeEvent.done = received.length := by
  induction received with
  | nil => rfl
  | cons r rs ih =>
    simp only [List.flatMap_cons, List.count_append, List.length_cons, ih]
    simp [List.count_cons]
    omega

/-- Claim C14. Request intake preserves arrival order and signals once per request: when
`readRequestsLoop` receives the requests `received` in that order, the backlog afterwards
is the previous backlog followed by `received`, the previous entries are unchanged, the
loop has done, for each request in turn, the append of that request and then
`chPosted.Done()`, and so `Done` was called once per received request. -/
theorem readRequestsLoop_order (s : IntakeState) (received : List RequestRef) :
    (readRequestsLoop s received).env.backlog = s.env.backlog ++ received ∧
    (readRequestsLoop s received).env.backlog.take s.env.backlog.length = s.env.backlog ∧
    (readRequestsLoop s received).events = s.events ++
      received.flatMap (fun r => [IntakeEvent.appended r, IntakeEvent.done]) ∧
    (readRequestsLoop s received).events.count IntakeEvent.done
      = s.events.count IntakeEvent.done + received.length := by
  obtain ⟨h1, h2⟩ := readRequestsLoop_spec received s
  refine ⟨h1, by rw [h1]; simp, h2, ?_⟩
  rw [h2, List.count_append, count_done_flatMap]

/-! ## The functions of the root contract -/

/-- Claim C11. The functions `init` registers for the root contract are exactly the eight
entry points deployContract, findContract, getChainInfo, delegateChainOwnership,
claimChainOwnership, getFeeInfo, setDefaultFee and setContractFee, with pairwise distinct
names; findContract, getChainInfo and getFeeInfo are registered as views and the other
five as functions that may change the state. -/
theorem init_call_surface :
    init.map (fun f => f.Name) =
      ["deployContract", "findContract", "claimChainOwnership", "delegateChainOwnership",
       "getChainInfo", "getFeeInfo", "setDefaultFee", "setContractFee"] ∧
    init.length = 8 ∧
    (init.map (fun f => f.Name)).Nodup ∧
    (∀ name, name ∈ init.map (fun f => f.Name) ↔
      name = "deployContract" ∨ name = "findContract" ∨ name = "getChainInfo" ∨
      name = "delegateChainOwnership" ∨ name = "claimChainOwnership" ∨
      name = "getFeeInfo" ∨ name = "setDefaultFee" ∨ name = "setContractFee") ∧
    (init.filter (fun f => f.IsView)).map (fun f => f.Name) =
      ["findContract", "getChainInfo", "getFeeInfo"] ∧
    (init.filter (fun f => !f.IsView)).map (fun f => f.Name) =
      ["deployContract", "claimChainOwnership", "delegateChainOwnership",
       "setDefaultFee", "setContractFee"] := by
  refine ⟨rfl, rfl, by decide, ?_, rfl, rfl⟩
  intro name
  simp only [init, Func, ViewFunc, FuncDeployContract, FuncFindContract, FuncGetChainInfo,
    FuncDelegateChainOwnership, FuncClaimChainOwnership, FuncGetFeeInfo, FuncSetDefaultFee,
    FuncSetContractFee, List.map_cons, List.map_nil, List.mem_cons, List.mem_nil_iff, or_false]
  tauto

end Wasp
